import Mathlib

/-!
Verification development for the PyDTNN layer engine (NN_layer.py).

Tensors are embedded over exact rationals (ℚ).  Small matrices use
Fin-indexed functions; the im2col/col2im machinery uses ℕ-indexed
functions together with explicit dimension bookkeeping, mirroring the
flat-index arithmetic of the source.  Layers whose backing kernels are
not part of the sources (the Cython im2col/col2im/argmax helpers) are
modelled from the specification and marked as such in their doc
comments.
-/

namespace PyDTNN

/-- A dense vector of `d` rational entries (one row of a 2-D batch). -/
abbrev Vecq (d : ℕ) := Fin d → ℚ

/-- A dense `m × n` rational matrix. -/
abbrev Matq (m n : ℕ) := Fin m → Fin n → ℚ

/-- `matMulq A B` is the matrix product `A·B` (the `self.matmul` BLAS call). -/
def matMulq {m k n : ℕ} (A : Matq m k) (B : Matq k n) : Matq m n :=
  fun i j => ∑ t, A i t * B t j

/-- `FC.forward` (NN_layer.py lines 109-114).  The source line is
`return res + self.biases if self.use_bias else 0`: by Python
conditional-expression precedence this returns the matrix
`res + biases` when `use_bias` holds and the bare Python integer `0`
otherwise.  The sum type records that difference: `.inl` carries a
matrix result, `.inr` the integer result. -/
def fcForward {m p n : ℕ} (useBias : Bool) (x : Matq m p) (w : Matq p n)
    (b : Vecq n) : (Matq m n) ⊕ ℕ :=
  let res := matMulq x w
  if useBias then Sum.inl (fun i j => res i j + b j) else Sum.inr 0

/-- Gradient slots written by `FC.backward`.  A slot is `none` when the
corresponding assignment never runs. -/
structure FCGrads (m n p : ℕ) where
  dw : Option (Matq p n)
  db : Option (Vecq n)
  dx : Option (Matq m p)

/-- `FC.backward` (NN_layer.py lines 116-127): `dw = xᵀ·dy` always,
`db = column-sum of dy` only when `use_bias`, and the function returns
`dx = dy·wᵀ` only when `need_dx` (otherwise Python returns `None`). -/
def fcBackward {m p n : ℕ} (useBias needDx : Bool) (x : Matq m p)
    (w : Matq p n) (dy : Matq m n) : FCGrads m n p :=
  { dw := some (matMulq (fun i j => x j i) dy)
    db := if useBias then some (fun j => ∑ i, dy i j) else none
    dx := if needDx then some (matMulq dy (fun i j => w j i)) else none }

/-- Hyperparameters bound by `initialize` for a 2-D sliding-window layer
(Conv2D, MaxPool2D): batch size, input channels, input height/width,
kernel height/width, vertical/horizontal padding and stride. -/
structure Cfg where
  b : ℕ
  ci : ℕ
  hi : ℕ
  wi : ℕ
  kh : ℕ
  kw : ℕ
  vpad : ℕ
  hpad : ℕ
  vs : ℕ
  hs : ℕ

/-- Output height `ho = ⌊(hi + 2·vpad − kh)/vstride⌋ + 1`
(NN_layer.py lines 177 and 334); for kernels not exceeding the padded
input this Nat division agrees with the Python floor. -/
def Cfg.ho (c : Cfg) : ℕ := (c.hi + 2 * c.vpad - c.kh) / c.vs + 1

/-- Output width `wo = ⌊(wi + 2·hpad − kw)/hstride⌋ + 1`
(NN_layer.py lines 178 and 335). -/
def Cfg.wo (c : Cfg) : ℕ := (c.wi + 2 * c.hpad - c.kw) / c.hs + 1

/-- The output-size formula of `Conv2D.initialize` (NN_layer.py line
177-178), over ℤ with floor division exactly as Python computes
`floor((xi + 2*pad - k) / s)` on integers. -/
def convOutSize (xi pad k s : ℕ) : ℤ :=
  Int.fdiv ((xi : ℤ) + 2 * pad - k) s + 1

/-- Direct enumeration of the valid sliding-window placements over the
padded input: start offsets `p` that land on the stride grid and whose
window of extent `k` stays inside the padded extent `xi + 2*pad`. -/
def numPlacements (xi pad k s : ℕ) : ℕ :=
  ((List.range (xi + 2 * pad + 1)).filter
    (fun q => decide (q % s = 0) && decide (q + k ≤ xi + 2 * pad))).length

/-- Value of the zero-padded input at padded coordinates `(py, px)` of
image `n`, channel `ch` (zero outside the original extent). -/
def padded (c : Cfg) (x : ℕ → ℕ → ℕ → ℕ → ℚ) (n ch py px : ℕ) : ℚ :=
  if c.vpad ≤ py ∧ py < c.vpad + c.hi ∧ c.hpad ≤ px ∧ px < c.hpad + c.wi then
    x n ch (py - c.vpad) (px - c.hpad)
  else 0

/-- Modelled from the spec: `im2col_cython` (glossary and §4.3; the
Cython kernel itself is not among the sources) expands the padded,
strided receptive fields of an `(n, c, h, w)` tensor into a column
matrix of shape `(channels·kh·kw, batch·ho·wo)`.  Row index `r` encodes
`(channel, kernel-row, kernel-col)`; column index encodes
`(image, out-row, out-col)` in row-major order. -/
def im2col (c : Cfg) (x : ℕ → ℕ → ℕ → ℕ → ℚ) : ℕ → ℕ → ℚ :=
  fun r col =>
    let ch := r / (c.kh * c.kw)
    let ki := (r / c.kw) % c.kh
    let kj := r % c.kw
    let n := col / (c.ho * c.wo)
    let i := (col / c.wo) % c.ho
    let j := col % c.wo
    padded c x n ch (i * c.vs + ki) (j * c.hs + kj)

/-- Modelled from the spec: `col2im_cython` (glossary and §4.3; the
Cython kernel itself is not among the sources) folds a column matrix
back into spatial layout, scatter-accumulating every column entry into
the padded position it was expanded from and cropping the padding. -/
def col2im (c : Cfg) (cols : ℕ → ℕ → ℚ) : ℕ → ℕ → ℕ → ℕ → ℚ :=
  fun n ch y x =>
    ((List.range (c.kh * c.kw)).map (fun r =>
      ((List.range c.ho).map (fun i =>
        ((List.range c.wo).map (fun j =>
          if i * c.vs + (r / c.kw) % c.kh = y + c.vpad ∧
             j * c.hs + r % c.kw = x + c.hpad then
            cols (ch * (c.kh * c.kw) + r) ((n * c.ho + i) * c.wo + j)
          else 0)).sum)).sum)).sum

/-- First-occurrence argmax over a list tail, carrying the current index,
best index and best value (ties keep the earlier index, as `np.argmax`). -/
def argmaxAux : List ℚ → ℕ → ℕ → ℚ → ℕ × ℚ
  | [], _, bi, bv => (bi, bv)
  | v :: rest, i, bi, bv =>
    if bv < v then argmaxAux rest (i + 1) i v else argmaxAux rest (i + 1) bi bv

/-- Modelled from the spec: `argmax_cython` along axis 0 (§4.4; the
Cython kernel itself is not among the sources): per column, the maximum
of rows `0..m-1` together with the first row index attaining it. -/
def argmaxCol (m : ℕ) (f : ℕ → ℚ) : ℕ × ℚ :=
  argmaxAux (((List.range m).drop 1).map f) 1 0 (f 0)

/-- `A·B` on flat ℕ-indexed matrices, summing `t` over `0..k-1`. -/
def matMulN (k : ℕ) (A B : ℕ → ℕ → ℚ) : ℕ → ℕ → ℚ :=
  fun i j => ((List.range k).map (fun t => A i t * B t j)).sum

/-- Gradient slots written by `Conv2D._backward_i2c`. -/
structure ConvGrads where
  dw : Option (ℕ → ℕ → ℚ)
  db : Option (ℕ → ℚ)
  dx : Option (ℕ → ℕ → ℕ → ℕ → ℚ)

/-- `Conv2D._backward_i2c` (NN_layer.py lines 249-273).  `weightsCols`
is `weights.reshape(co, -1)` and `xCols` the column matrix cached by the
preceding forward.  `dw = dy_cols·x_colsᵀ` is assigned unconditionally,
`db = Σ dy over (batch, h, w)` only when `use_bias`, and
`dx = col2im(w_colsᵀ·dy_cols)` is returned only when `need_dx`
(otherwise Python returns `None`). -/
def convBackwardI2c (c : Cfg) (co : ℕ) (useBias needDx : Bool)
    (weightsCols xCols : ℕ → ℕ → ℚ) (dy : ℕ → ℕ → ℕ → ℕ → ℚ) : ConvGrads :=
  let dyCols : ℕ → ℕ → ℚ := fun f col =>
    dy (col / (c.ho * c.wo)) f ((col / c.wo) % c.ho) (col % c.wo)
  let ncols := c.b * c.ho * c.wo
  { dw := some (matMulN ncols dyCols (fun t j => xCols j t))
    db := if useBias then
            some (fun f => ((List.range c.b).map (fun n =>
              ((List.range c.ho).map (fun i =>
                ((List.range c.wo).map (fun j => dy n f i j)).sum)).sum)).sum)
          else none
    dx := if needDx then
            some (col2im c (matMulN co (fun i j => weightsCols j i) dyCols))
          else none }

/-- Mutable state a `MaxPool2D` instance carries between calls: the
arg-max indices recorded by the last forward and the `_dy_cols` column
buffer, whose `lru_cache` (NN_layer.py lines 365-367) hands back the
same array object on every backward call with the same `dy` shape.  The
model covers runs using a single `dy` shape, as in the claim. -/
structure MPState where
  maxids : ℕ → ℕ
  buf : Option (ℕ → ℕ → ℚ)

/-- State of a freshly initialized `MaxPool2D` (no forward yet, no
cached `_dy_cols` buffer yet). -/
def mpInit : MPState := ⟨fun _ => 0, none⟩

/-- `MaxPool2D.forward` (NN_layer.py lines 354-363): reshape the input
to `(B·ci, 1, hi, wi)`, expand windows with `im2col`, take the
column-wise max recording the winning row index per column (`maxids`),
and reshape the maxima to `(B, ci, ho, wo)`. -/
def mpForward (c : Cfg) (st : MPState) (x : ℕ → ℕ → ℕ → ℕ → ℚ) :
    MPState × (ℕ → ℕ → ℕ → ℕ → ℚ) :=
  let xr : ℕ → ℕ → ℕ → ℕ → ℚ := fun m _ y xx => x (m / c.ci) (m % c.ci) y xx
  let xCols := im2col c xr
  let ids : ℕ → ℕ := fun col => (argmaxCol (c.kh * c.kw) (fun r => xCols r col)).1
  let y : ℕ → ℚ := fun col => (argmaxCol (c.kh * c.kw) (fun r => xCols r col)).2
  (⟨ids, st.buf⟩, fun n ch i j => y (((n * c.ci + ch) * c.ho + i) * c.wo + j))

/-- `MaxPool2D.backward` (NN_layer.py lines 369-379) in its
`need_dx = true` branch: fetch the `_dy_cols` buffer (the cached one if
this `dy` shape was seen before, else fresh zeros), assign
`dy_cols[maxids] = dy.flatten()` — one write per column, at the row the
last forward recorded — and fold with `col2im` into `(B, ci, hi, wi)`.
The written buffer stays cached for the next call. -/
def mpBackward (c : Cfg) (st : MPState) (dy : ℕ → ℕ → ℕ → ℕ → ℚ) :
    MPState × (ℕ → ℕ → ℕ → ℕ → ℚ) :=
  let ncols := c.b * c.ci * c.ho * c.wo
  let dyflat : ℕ → ℚ := fun col =>
    dy (col / (c.ci * c.ho * c.wo)) ((col / (c.ho * c.wo)) % c.ci)
      ((col / c.wo) % c.ho) (col % c.wo)
  let buf0 := st.buf.getD (fun _ _ => 0)
  let buf1 : ℕ → ℕ → ℚ := fun r col =>
    if col < ncols ∧ r = st.maxids col then dyflat col else buf0 r col
  let dxFlat := col2im c buf1
  (⟨st.maxids, some buf1⟩, fun n ch y xx => dxFlat (n * c.ci + ch) 0 y xx)

/-- `np.sum(xs, axis=0)`: column-wise sum of a batch of rows. -/
def colSum {d : ℕ} (xs : List (Vecq d)) : Vecq d :=
  fun j => (xs.map (fun r => r j)).sum

/-- `np.mean(xs, axis=0)`: column-wise mean over the batch. -/
def npMean {d : ℕ} (xs : List (Vecq d)) : Vecq d :=
  fun j => colSum xs j / (xs.length : ℚ)

/-- The synchronized `mean` helper of `BatchNormalization.forward`
(NN_layer.py lines 517-523) with `sync_stats` on and a communicator:
every shard contributes `np.sum(data, axis=0) / N` and the Allreduce
sums those contributions, `N` being the globally summed sample count. -/
def syncMean {d : ℕ} (shards : List (List (Vecq d))) (N : ℚ) : Vecq d :=
  fun j => (shards.map (fun sh => colSum sh j / N)).sum

/-- One normalized row: `y = γ·(x − μ)/std + β`, feature-wise. -/
def bnRow {d : ℕ} (gamma beta mu stdv : Vecq d) (r : Vecq d) : Vecq d :=
  fun j => gamma j * ((r j - mu j) / stdv j) + beta j

/-- `self.model.mode` of the shared run configuration. -/
inductive BNMode
  | train
  | evaluate
deriving DecidableEq

/-- Per-instance state of `BatchNormalization` after `initialize`:
scale/shift parameters, running statistics, and the momentum and
epsilon hyperparameters. -/
structure BNState (d : ℕ) where
  gamma : Vecq d
  beta : Vecq d
  runningMean : Vecq d
  runningVar : Vecq d
  momentum : ℚ
  eps : ℚ

/-- `BatchNormalization.forward` (NN_layer.py lines 515-551) for 2-D
input on a single process (no `sync_stats` communicator), returning the
output batch and the state after the call.  `sqrtq` stands for
`np.sqrt`, kept abstract since exact rationals carry no square root.
The train branch normalizes by batch statistics and folds them into the
running estimates with momentum; the evaluate branch normalizes by the
running estimates and assigns nothing. -/
def bnForwardStep {d : ℕ} (sqrtq : ℚ → ℚ) (mode : BNMode) (s : BNState d)
    (x : List (Vecq d)) : List (Vecq d) × BNState d :=
  match mode with
  | .train =>
    let mu := npMean x
    let varv := npMean (x.map (fun r => fun j => (r j - mu j) ^ 2))
    let stdv : Vecq d := fun j => sqrtq (varv j + s.eps)
    (x.map (bnRow s.gamma s.beta mu stdv),
     { s with
        runningMean := fun j => s.momentum * s.runningMean j + (1 - s.momentum) * mu j
        runningVar := fun j => s.momentum * s.runningVar j + (1 - s.momentum) * varv j })
  | .evaluate =>
    let stdv : Vecq d := fun j => sqrtq (s.runningVar j + s.eps)
    (x.map (bnRow s.gamma s.beta s.runningMean stdv), s)

/-- `BatchNormalization.forward` in train mode with `sync_stats` and a
communicator over `N` shards (NN_layer.py lines 528-539): the sample
count `N` is Allreduce-summed, both `mean` calls divide local sums by
the global `N` before Allreduce-summing them, and each shard then
normalizes its own rows with the shared statistics.  Returns each
shard's output batch. -/
def bnTrainSyncOutputs {d : ℕ} (sqrtq : ℚ → ℚ) (s : BNState d)
    (shards : List (List (Vecq d))) : List (List (Vecq d)) :=
  let N : ℚ := ((shards.map List.length).sum : ℕ)
  let mu := syncMean shards N
  let varv := syncMean (shards.map (fun sh =>
    sh.map (fun r => fun j => (r j - mu j) ^ 2))) N
  let stdv : Vecq d := fun j => sqrtq (varv j + s.eps)
  shards.map (fun sh => sh.map (bnRow s.gamma s.beta mu stdv))

/-- Gradient slots written by `BatchNormalization.backward`. -/
structure BNGrads (d : ℕ) where
  dgamma : Option (Vecq d)
  dbeta : Option (Vecq d)
  dx : Option (List (Vecq d))

/-- `BatchNormalization.backward` (NN_layer.py lines 553-567) for 2-D
input.  `xn` and `stdv` are the normalized activations and standard
deviation cached by the preceding train-mode forward.  `dgamma` and
`dbeta` are assigned unconditionally; the input gradient
`dx = (γ/(std·N))·(N·dy − xn·dγ − dβ)` is returned only when `need_dx`
(otherwise Python returns `None`). -/
def bnBackward {d : ℕ} (needDx : Bool) (gamma : Vecq d) (xn : List (Vecq d))
    (stdv : Vecq d) (dy : List (Vecq d)) : BNGrads d :=
  let N : ℚ := (dy.length : ℚ)
  let dgamma : Vecq d := colSum (List.zipWith (fun a b => fun j => a j * b j) dy xn)
  let dbeta : Vecq d := colSum dy
  { dgamma := some dgamma
    dbeta := some dbeta
    dx := if needDx then
            some (List.zipWith (fun a b => fun j =>
              gamma j / (stdv j * N) * (N * a j - b j * dgamma j - dbeta j)) dy xn)
          else none }

/-- Result of running one composite-block path backward: the produced
gradient value together with whether it is still the very array object
the caller passed as `dy` (Python aliasing).  A path with at least one
layer returns a fresh array (the modelled layers, like the scaling
layers of the spec's test, allocate their results); the empty path
hands back `dy` itself. -/
structure BwSlot (α : Type) where
  val : α
  aliased : Bool

/-- `for l in reversed(p): v = l.backward(v)` — run a path's layers in
reverse order on a gradient (NN_layer.py lines 639 and 712). -/
def runPathBw {α : Type} (p : List (α → α)) (dy : α) : BwSlot α :=
  match p with
  | [] => ⟨dy, true⟩
  | _ :: _ => ⟨p.reverse.foldl (fun v l => l v) dy, false⟩

/-- The accumulation loop of `AdditionBlock.backward` over paths 1..n-1
(NN_layer.py lines 638-641), with numpy aliasing made explicit: path
`i` runs on the current value of the `dy` object, `dx[0] += dx[i]`
updates the object `dx[0]` refers to in place, and when `dx[0]` is
`dy` itself (path 0 had no layers) that write mutates `dy`. -/
def addBwLoop {α : Type} [Add α] :
    List (List (α → α)) → α → α → Bool → α × α
  | [], dyVal, acc, _ => (acc, dyVal)
  | p :: ps, dyVal, acc, accAl =>
    let si := runPathBw p dyVal
    let newAcc := acc + si.val
    let newDy := if accAl then newAcc else dyVal
    addBwLoop ps newDy newAcc accAl

/-- `AdditionBlock.backward` (NN_layer.py lines 636-641): start from
`dx = [dy] * len(paths)` (every slot the same object), run each path in
reverse, and fold later paths into `dx[0]` with in-place `+=`.  Returns
the value the caller receives and the final value of the `dy` object.
(The source indexes `dx[0]`, so a block with no paths would raise; that
degenerate case is given the junk value `(dy, dy)`.) -/
def additionBlockBackward {α : Type} [Add α]
    (paths : List (List (α → α))) (dy : α) : α × α :=
  match paths with
  | [] => (dy, dy)
  | p0 :: rest =>
    let s0 := runPathBw p0 dy
    addBwLoop rest dy s0.val s0.aliased

/-- A 4-D tensor in `(batch, channel, row, column)` nested-list layout. -/
abbrev T4 := List (List (List (List ℚ)))

/-- `for l in p: v = l.forward(v)` — run a path's layers forward. -/
def runPathFw (p : List (T4 → T4)) (x : T4) : T4 :=
  p.foldl (fun v l => l v) x

/-- `np.concatenate(xs, axis=1)`: concatenate channel lists per batch
element. -/
def concatAxis1 : List T4 → T4
  | [] => []
  | [t] => t
  | t :: ts => List.zipWith (fun a b => a ++ b) t (concatAxis1 ts)

/-- `np.cumsum` on a flat list (the `idx_co` of
`ConcatenationBlock.initialize`, NN_layer.py line 677). -/
def npCumsum (l : List ℕ) : List ℕ :=
  (List.scanl (fun a b => a + b) 0 l).tail

/-- `self.idx_co[:-1]`: the channel boundaries `np.split` cuts at. -/
def splitPointsOf (outCo : List ℕ) : List ℕ :=
  (npCumsum outCo).dropLast

/-- The pieces of `np.split(t, pts, axis=1)` from channel offset `lo`. -/
def splitGo (lo : ℕ) : List ℕ → T4 → List T4
  | [], t => [t.map (fun chs => chs.drop lo)]
  | p :: ps, t =>
    t.map (fun chs => (chs.drop lo).take (p - lo)) :: splitGo p ps t

/-- `np.split(t, pts, axis=1)`: cut the channel axis at the given
boundaries. -/
def npSplitAxis1 (pts : List ℕ) (t : T4) : List T4 :=
  splitGo 0 pts t

/-- `ConcatenationBlock.forward` (NN_layer.py lines 703-707): run every
path on the input and concatenate the path outputs along the channel
axis. -/
def concatenationBlockForward (paths : List (List (T4 → T4))) (x : T4) : T4 :=
  concatAxis1 (paths.map (fun p => runPathFw p x))

/-- The `np.split` line of `ConcatenationBlock.backward` (NN_layer.py
line 710): the slice of the incoming gradient routed to each path,
given the per-path output channel counts `out_co` recorded at
initialize. -/
def concatenationBlockSlices (outCo : List ℕ) (dy : T4) : List T4 :=
  npSplitAxis1 (splitPointsOf outCo) dy

/-- A child layer as the composite blocks see it during `initialize`:
its `initialize(prev_shape, need_dx)` binds the output shape computed
from the incoming shape. -/
structure ChildLayer where
  outShape : List ℕ → List ℕ

/-- One path of a composite block's `initialize` loop (NN_layer.py
lines 582-598 and 656-670): thread `prev_shape` through the children in
order, recording the `(prev_shape, need_dx)` arguments passed to each
child's `initialize`, and return the records with the path's final
output shape. -/
def pathInitRecords (p : List ChildLayer) (prev : List ℕ) (needDx : Bool) :
    List (List ℕ × Bool) × List ℕ :=
  p.foldl (fun acc l => (acc.1 ++ [(acc.2, needDx)], l.outShape acc.2)) ([], prev)

/-- `AdditionBlock.initialize` (NN_layer.py lines 578-604): the received
`need_dx` is overwritten with `True` before any child is initialized;
every path starts again from the block's own `prev_shape`.  Returns the
per-child `(prev_shape, need_dx)` records and the per-path output
shapes. -/
def additionBlockInitialize (paths : List (List ChildLayer))
    (prevShape : List ℕ) (needDx : Bool) :
    List (List (List ℕ × Bool)) × List (List ℕ) :=
  let nd := true
  (paths.map (fun p => (pathInitRecords p prevShape nd).1),
   paths.map (fun p => (pathInitRecords p prevShape nd).2))

/-- `ConcatenationBlock.initialize` (NN_layer.py lines 652-678): same
child-initialization loop with `need_dx` overwritten to `True`; it
additionally derives `out_co` (leading entry of each path's output
shape) and the cumulative boundaries `idx_co`. -/
def concatenationBlockInitialize (paths : List (List ChildLayer))
    (prevShape : List ℕ) (needDx : Bool) :
    List (List (List ℕ × Bool)) × List (List ℕ) × List ℕ :=
  let nd := true
  let outShapes := paths.map (fun p => (pathInitRecords p prevShape nd).2)
  (paths.map (fun p => (pathInitRecords p prevShape nd).1),
   outShapes,
   npCumsum (outShapes.map (fun s => s.headD 0)))

/-- Concrete MaxPool2D scenario: 1 image, 1 channel, a 2×1 input, a 2×1
pool window, no padding, stride 1, so a single 1×1 output. -/
def mpExCfg : Cfg := ⟨1, 1, 2, 1, 2, 1, 0, 0, 1, 1⟩

/-- First forward input: 5 on top, 1 below (arg-max at input row 0). -/
def mpExXFirst : ℕ → ℕ → ℕ → ℕ → ℚ := fun _ _ y _ => if y = 0 then 5 else 1

/-- Second forward input: 1 on top, 5 below (arg-max at input row 1). -/
def mpExXSecond : ℕ → ℕ → ℕ → ℕ → ℚ := fun _ _ y _ => if y = 0 then 1 else 5

/-- First output gradient: the single output position carries 9. -/
def mpExDyFirst : ℕ → ℕ → ℕ → ℕ → ℚ := fun _ _ _ _ => 9

/-- Second output gradient: the single output position carries 7. -/
def mpExDySecond : ℕ → ℕ → ℕ → ℕ → ℚ := fun _ _ _ _ => 7

/-- First forward/backward pair after initialization. -/
def mpExBw1 : MPState × (ℕ → ℕ → ℕ → ℕ → ℚ) :=
  mpBackward mpExCfg (mpForward mpExCfg mpInit mpExXFirst).1 mpExDyFirst

/-- State after the second forward (the cached buffer still holds the
first backward's writes). -/
def mpExSt3 : MPState := (mpForward mpExCfg mpExBw1.1 mpExXSecond).1

/-- Second forward/backward pair, same `dy` shape as the first. -/
def mpExBw2 : MPState × (ℕ → ℕ → ℕ → ℕ → ℚ) :=
  mpBackward mpExCfg mpExSt3 mpExDySecond

/-- Concrete BatchNormalization state for the evaluation-mode claim. -/
def bnExS1 : BNState 1 :=
  ⟨fun _ => 2, fun _ => 3, fun _ => 1, fun _ => 4, 9 / 10, 1 / 10⟩

/-- Same parameters and running statistics as `bnExS1` but a different
momentum (momentum is irrelevant to the evaluation branch). -/
def bnExS2 : BNState 1 :=
  ⟨fun _ => 2, fun _ => 3, fun _ => 1, fun _ => 4, 1 / 2, 1 / 10⟩

/-- Concrete evaluation-mode input batch: one row, one feature. -/
def bnExX : List (Vecq 1) := [fun _ => 5]

/-- An 8×8 spatial plane of zeros. -/
def planeEx : List (List ℚ) := List.replicate 8 (List.replicate 8 (0 : ℚ))

/-- A one-image tensor with 4 channels over the 8×8 plane. -/
def tensorEx4 : T4 := [List.replicate 4 planeEx]

/-- A one-image tensor with 8 channels over the 8×8 plane. -/
def tensorEx8 : T4 := [List.replicate 8 planeEx]

end PyDTNN

namespace PyDTNN

/-- Claim C1: For every input batch x, FC.forward(x) returns x·W plus
the broadcast bias vector when use_bias is true, and returns x·W when
use_bias is false.  The code is wrong on the second half: by Python
conditional-expression precedence, `return res + self.biases if
self.use_bias else 0` returns the integer 0 — not x·W — whenever
use_bias is false.  Here, with x = [[2]] and W = [[3]], the forward
returns the integer 0 while x·W = [[6]]. -/
theorem fc_forward_without_bias_returns_integer_zero :
    fcForward false ((fun _ _ => (2 : ℚ)) : Matq 1 1)
        ((fun _ _ => (3 : ℚ)) : Matq 1 1) (fun _ => (0 : ℚ)) = Sum.inr 0 ∧
    matMulq ((fun _ _ => (2 : ℚ)) : Matq 1 1) ((fun _ _ => (3 : ℚ)) : Matq 1 1) 0 0 = 6 ∧
    (6 : ℚ) ≠ 0 := by
  refine ⟨rfl, ?_, by norm_num⟩
  norm_num [matMulq]

/-- Claim C5: an initialized AdditionBlock whose two paths are single
layers scaling their input by a and b returns, from backward on a 2×3
gradient matrix G, the input gradient (a+b)·G: every path runs in
reverse on the output gradient and the resulting input gradients are
summed element-wise. -/
theorem addition_block_backward_sums_path_gradients (a b : ℚ) (G : Matq 2 3) :
    (additionBlockBackward
        [[fun M => fun i j => a * M i j], [fun M => fun i j => b * M i j]] G).1
      = fun i j => (a + b) * G i j := by
  funext i j
  simp [additionBlockBackward, addBwLoop, runPathBw]
  ring

/-- Claim C7: for FC, Conv2D (i2c strategy) and BatchNormalization,
backward(dy) assigns every declared parameter gradient (dw always, db
exactly when use_bias; dgamma and dbeta always) regardless of need_dx,
and returns the input gradient exactly when need_dx is true (None
otherwise). -/
theorem backward_sets_param_grads_and_respects_need_dx
    {m p n d : ℕ} (useBias needDx : Bool)
    (x : Matq m p) (w : Matq p n) (dy : Matq m n)
    (c : Cfg) (co : ℕ) (wCols xCols : ℕ → ℕ → ℚ) (dyc : ℕ → ℕ → ℕ → ℕ → ℚ)
    (gamma : Vecq d) (xn : List (Vecq d)) (stdv : Vecq d) (dyb : List (Vecq d)) :
    ((fcBackward useBias needDx x w dy).dw.isSome = true ∧
     (fcBackward useBias needDx x w dy).db.isSome = useBias ∧
     (fcBackward useBias needDx x w dy).dx.isSome = needDx) ∧
    ((convBackwardI2c c co useBias needDx wCols xCols dyc).dw.isSome = true ∧
     (convBackwardI2c c co useBias needDx wCols xCols dyc).db.isSome = useBias ∧
     (convBackwardI2c c co useBias needDx wCols xCols dyc).dx.isSome = needDx) ∧
    ((bnBackward needDx gamma xn stdv dyb).dgamma.isSome = true ∧
     (bnBackward needDx gamma xn stdv dyb).dbeta.isSome = true ∧
     (bnBackward needDx gamma xn stdv dyb).dx.isSome = needDx) := by
  cases useBias <;> cases needDx <;>
    simp [fcBackward, convBackwardI2c, bnBackward]

/-- Claim C8: backward(dy) is claimed never to mutate dy for every
layer, including composite blocks with a zero-layer path.  The code is
wrong there: in `AdditionBlock.backward`, `dx = [dy] * len(paths)`
makes every slot the `dy` object, so with an empty first path
`dx[0] += dx[1]` adds in place into dy itself.  With paths ([], [scale
by 2]) and dy = [[1]], dy holds 3 = 1 + 2·1 after backward. -/
theorem addition_block_backward_mutates_dy_with_empty_path :
    (additionBlockBackward [[], [fun M => fun i j => 2 * M i j]]
        ((fun _ _ => (1 : ℚ)) : Matq 1 1)).2 0 0 = 3 ∧
    ((fun _ _ => (1 : ℚ)) : Matq 1 1) 0 0 = 1 ∧ (3 : ℚ) ≠ 1 := by
  refine ⟨?_, rfl, by norm_num⟩
  norm_num [additionBlockBackward, addBwLoop, runPathBw]

/-- Claim C9: BatchNormalization in evaluation mode is a pure function
of the input and the stored running statistics (with the scale/shift
parameters): two forwards with identical input and identical stored
statistics agree — even if other state such as momentum differs — and
the evaluation branch leaves the whole state, in particular
running_mean and running_var, unchanged. -/
theorem batchnorm_eval_pure_and_preserves_running_stats {d : ℕ}
    (sqrtq : ℚ → ℚ) (s1 s2 : BNState d) (x1 x2 : List (Vecq d))
    (hg : s1.gamma = s2.gamma) (hb : s1.beta = s2.beta)
    (hm : s1.runningMean = s2.runningMean) (hv : s1.runningVar = s2.runningVar)
    (he : s1.eps = s2.eps) (hx : x1 = x2) :
    (bnForwardStep sqrtq .evaluate s1 x1).1 = (bnForwardStep sqrtq .evaluate s2 x2).1 ∧
    (bnForwardStep sqrtq .evaluate s1 x1).2 = s1 := by
  subst hx
  refine ⟨?_, rfl⟩
  simp [bnForwardStep, hg, hb, hm, hv, he]

/-- Witness for C9: the two concrete states share parameters and
running statistics but differ in momentum, and the evaluation-mode
outputs agree while the state is returned untouched. -/
theorem batchnorm_eval_pure_and_preserves_running_stats_witness :
    (bnExS1.gamma = bnExS2.gamma ∧ bnExS1.beta = bnExS2.beta ∧
     bnExS1.runningMean = bnExS2.runningMean ∧
     bnExS1.runningVar = bnExS2.runningVar ∧ bnExS1.eps = bnExS2.eps ∧
     bnExS1.momentum ≠ bnExS2.momentum) ∧
    (bnForwardStep id .evaluate bnExS1 bnExX).1
      = (bnForwardStep id .evaluate bnExS2 bnExX).1 ∧
    (bnForwardStep id .evaluate bnExS1 bnExX).2 = bnExS1 := by
  refine ⟨⟨rfl, rfl, rfl, rfl, rfl, ?_⟩, ?_, ?_⟩
  · norm_num [bnExS1, bnExS2]
  · exact (batchnorm_eval_pure_and_preserves_running_stats id bnExS1 bnExS2
      bnExX bnExX rfl rfl rfl rfl rfl rfl).1
  · exact (batchnorm_eval_pure_and_preserves_running_stats id bnExS1 bnExS2
      bnExX bnExX rfl rfl rfl rfl rfl rfl).2

/-- The per-child `need_dx` flags a path's initialize loop records are
exactly the flag it was handed, one per child. -/
theorem pathInitRecords_foldl_flags (p : List ChildLayer) (nd : Bool) :
    ∀ (acc : List (List ℕ × Bool)) (prev : List ℕ),
      ((p.foldl (fun a l => (a.1 ++ [(a.2, nd)], l.outShape a.2)) (acc, prev)).1).map Prod.snd
        = acc.map Prod.snd ++ p.map (fun _ => nd) := by
  induction p with
  | nil => intro acc prev; simp
  | cons l t ih =>
    intro acc prev
    simp only [List.foldl_cons, List.map_cons]
    rw [ih]
    simp

/-- Flags recorded by `pathInitRecords` are all the handed flag. -/
theorem pathInitRecords_flags (p : List ChildLayer) (prev : List ℕ) (nd : Bool) :
    ((pathInitRecords p prev nd).1).map Prod.snd = p.map (fun _ => nd) := by
  have h := pathInitRecords_foldl_flags p nd [] prev
  simpa [pathInitRecords] using h

/-- Claim C10: AdditionBlock.initialize and
ConcatenationBlock.initialize ignore the need_dx argument they receive:
every child layer in every path is initialized with need_dx forced to
true, whatever flag the block itself was handed. -/
theorem composite_initialize_forces_need_dx_true
    (paths : List (List ChildLayer)) (prevShape : List ℕ) (needDx : Bool) :
    ((additionBlockInitialize paths prevShape needDx).1).map
        (fun recs => recs.map Prod.snd)
      = paths.map (fun pth => pth.map (fun _ => true)) ∧
    ((concatenationBlockInitialize paths prevShape needDx).1).map
        (fun recs => recs.map Prod.snd)
      = paths.map (fun pth => pth.map (fun _ => true)) := by
  constructor <;>
    simp [additionBlockInitialize, concatenationBlockInitialize,
      List.map_map, Function.comp, pathInitRecords_flags]

/-- Claim C2: every backward is claimed to place each dy element at the
arg-max position of the immediately preceding forward and zero
everywhere else, including on later calls with the same dy shape.  The
code is wrong from the second backward on: `_dy_cols` is lru-cached, so
the "zero-initialized" buffer returns dirty.  In the concrete run the
first pair behaves as claimed (gradient 9 at the recorded arg-max,
input row 0; zero at row 1), but after a second forward whose arg-max
moves to input row 1, the second backward returns 9 — the first call's
stale write — at input row 0 instead of the claimed 0, alongside the
correctly routed 7 at row 1. -/
theorem maxpool_cached_buffer_leaks_stale_gradient :
    (mpExBw1.2 0 0 0 0 = 9 ∧ mpExBw1.2 0 0 1 0 = 0) ∧
    mpExSt3.maxids 0 = 1 ∧
    (mpExBw2.2 0 0 0 0 = 9 ∧ (9 : ℚ) ≠ 0 ∧ mpExBw2.2 0 0 1 0 = 7) := by
  refine ⟨⟨?_, ?_⟩, ?_, ?_, by norm_num, ?_⟩ <;>
    norm_num [mpExBw2, mpExSt3, mpExBw1, mpBackward, mpForward, mpInit,
      mpExCfg, Cfg.ho, Cfg.wo, im2col, col2im, argmaxCol, argmaxAux, padded,
      mpExXFirst, mpExXSecond, mpExDyFirst, mpExDySecond, List.range_succ]

/-- Column sums split over list concatenation. -/
theorem colSum_append {d : ℕ} (a b : List (Vecq d)) (j : Fin d) :
    colSum (a ++ b) j = colSum a j + colSum b j := by
  simp [colSum]

/-- Summing per-shard column sums gives the column sum of the
concatenated batch. -/
theorem sum_colSum_join {d : ℕ} (L : List (List (Vecq d))) (j : Fin d) :
    (L.map (fun sh => colSum sh j)).sum = colSum L.join j := by
  induction L with
  | nil => simp [colSum]
  | cons h t ih =>
    simp only [List.map_cons, List.sum_cons, List.join_cons, colSum_append, ih]

/-- Mapping each shard then concatenating is mapping the concatenation. -/
theorem join_map_map {α β : Type} (g : α → β) (L : List (List α)) :
    (L.map (fun sh => sh.map g)).join = L.join.map g := by
  induction L with
  | nil => rfl
  | cons h t ih =>
    simp only [List.map_cons, List.join_cons, List.map_append, ih]

/-- The synchronized mean over shards — each shard contributing its
local sum divided by the global count, then summed — equals the plain
mean of the concatenated batch. -/
theorem syncMean_eq_npMean {d : ℕ} (L : List (List (Vecq d))) :
    syncMean L (((L.map List.length).sum : ℕ) : ℚ) = npMean L.join := by
  funext j
  show (L.map (fun sh => colSum sh j / (((L.map List.length).sum : ℕ) : ℚ))).sum
      = colSum L.join j / ((L.join.length : ℕ) : ℚ)
  rw [List.length_join]
  simp only [div_eq_mul_inv]
  rw [List.sum_map_mul_right, sum_colSum_join]

/-- Claim C3: training-mode BatchNormalization forward with sync_stats
across any number of shards — summing the sample count and the sums
feeding mean and variance across shards before dividing — produces on
each shard exactly the rows a single un-sharded run on the
concatenation produces, over exact arithmetic (np.sqrt kept abstract,
the same function on both sides). -/
theorem batchnorm_sync_shards_match_unsharded {d : ℕ} (sqrtq : ℚ → ℚ)
    (s : BNState d) (shards : List (List (Vecq d))) :
    (bnTrainSyncOutputs sqrtq s shards).join
      = (bnForwardStep sqrtq .train s shards.join).1 := by
  simp only [bnTrainSyncOutputs, bnForwardStep]
  rw [syncMean_eq_npMean]
  have hlen : ((shards.map (fun sh =>
        sh.map (fun r => fun j => (r j - npMean shards.join j) ^ 2))).map
          List.length).sum = (shards.map List.length).sum := by
    simp [List.map_map, Function.comp_def]
  have hvar : syncMean (shards.map (fun sh =>
        sh.map (fun r => fun j => (r j - npMean shards.join j) ^ 2)))
        (((shards.map List.length).sum : ℕ) : ℚ)
      = npMean (shards.join.map (fun r => fun j => (r j - npMean shards.join j) ^ 2)) := by
    rw [← hlen, syncMean_eq_npMean, join_map_map]
  rw [hvar, join_map_map]

/-- Among 0..n there are n/s + 1 points of a positive stride-s grid. -/
theorem count_stride_points (s : ℕ) (n : ℕ) :
    ((List.range (n + 1)).filter (fun q => decide (q % s = 0))).length
      = n / s + 1 := by
  induction n with
  | zero => simp [List.range_succ]
  | succ n ih =>
    rw [List.range_succ, List.filter_append, List.length_append, ih]
    by_cases h : (n + 1) % s = 0
    · have hdvd : s ∣ n + 1 := Nat.dvd_of_mod_eq_zero h
      simp [h, Nat.succ_div, hdvd]
    · have hdvd : ¬s ∣ n + 1 := fun hd => h (Nat.mod_eq_zero_of_dvd hd)
      simp [h, Nat.succ_div, hdvd]

/-- Extending the enumeration range beyond the last start position that
still fits changes nothing: positions above M fail the fit test. -/
theorem count_window_starts_shift (s M : ℕ) (t : ℕ) :
    ((List.range (M + t + 1)).filter
        (fun q => decide (q % s = 0) && decide (q ≤ M))).length
      = ((List.range (M + 1)).filter (fun q => decide (q % s = 0))).length := by
  induction t with
  | zero =>
    congr 1
    apply List.filter_congr
    intro q hq
    have hqM : q ≤ M := by
      have := List.mem_range.mp hq
      omega
    simp [hqM]
  | succ t ih =>
    have he : M + (t + 1) + 1 = (M + t + 1) + 1 := by omega
    have hgt : ¬(M + t + 1 ≤ M) := by omega
    rw [he, List.range_succ, List.filter_append, List.length_append]
    simp [hgt, ih]

/-- One axis of claim C4: the `initialize` output-size formula counts
exactly the sliding-window start offsets that land on the stride grid
and fit inside the padded input. -/
theorem outSize_eq_numPlacements (xi pad k s : ℕ) (hpos : 0 < s)
    (hk : k ≤ xi + 2 * pad) :
    convOutSize xi pad k s = (numPlacements xi pad k s : ℤ) := by
  have hsplit : xi + 2 * pad = (xi + 2 * pad - k) + k := by omega
  have hcount : numPlacements xi pad k s = (xi + 2 * pad - k) / s + 1 := by
    unfold numPlacements
    have hcongr : ((List.range (xi + 2 * pad + 1)).filter
          (fun q => decide (q % s = 0) && decide (q + k ≤ xi + 2 * pad)))
        = ((List.range (xi + 2 * pad + 1)).filter
          (fun q => decide (q % s = 0) && decide (q ≤ xi + 2 * pad - k))) := by
      apply List.filter_congr
      intro q hq
      have h2 : decide (q + k ≤ xi + 2 * pad) = decide (q ≤ xi + 2 * pad - k) :=
        decide_eq_decide.mpr (by omega)
      rw [h2]
    rw [hcongr]
    have he : xi + 2 * pad + 1 = (xi + 2 * pad - k) + k + 1 := by omega
    rw [he, count_window_starts_shift s (xi + 2 * pad - k) k,
      count_stride_points s]
  rw [hcount]
  unfold convOutSize
  have hnum : (xi : ℤ) + 2 * pad - k = ((xi + 2 * pad - k : ℕ) : ℤ) := by
    omega
  rw [hnum, Int.fdiv_eq_ediv _ (Int.natCast_nonneg s)]
  push_cast
  ring

/-- Claim C4: for all valid hyperparameters with positive strides and
kernels not exceeding the padded input, the computed output sizes
`ho = ⌊(hi + 2·vpad − kh)/vstride⌋ + 1` and
`wo = ⌊(wi + 2·hpad − kw)/hstride⌋ + 1` equal the number of valid
sliding-window placements found by direct enumeration over the padded
input. -/
theorem conv_output_size_counts_window_placements
    (hi wi kh kw vpad hpad vs hs : ℕ) (hvs : 0 < vs) (hhs : 0 < hs)
    (hkh : kh ≤ hi + 2 * vpad) (hkw : kw ≤ wi + 2 * hpad) :
    convOutSize hi vpad kh vs = (numPlacements hi vpad kh vs : ℤ) ∧
    convOutSize wi hpad kw hs = (numPlacements wi hpad kw hs : ℤ) :=
  ⟨outSize_eq_numPlacements hi vpad kh vs hvs hkh,
   outSize_eq_numPlacements wi hpad kw hs hhs hkw⟩

/-- Witness for C4 at (hi, wi, kh, kw, vpad, hpad, vs, hs) =
(5, 6, 3, 2, 1, 0, 2, 3): ho = ⌊(5+2−3)/2⌋+1 = 3 and
wo = ⌊(6+0−2)/3⌋+1 = 2 placements. -/
theorem conv_output_size_counts_window_placements_witness :
    (0 < 2 ∧ 0 < 3 ∧ 3 ≤ 5 + 2 * 1 ∧ 2 ≤ 6 + 2 * 0) ∧
    convOutSize 5 1 3 2 = (numPlacements 5 1 3 2 : ℤ) ∧
    convOutSize 6 0 2 3 = (numPlacements 6 0 2 3 : ℤ) :=
  ⟨by decide,
   conv_output_size_counts_window_placements 5 6 3 2 1 0 2 3
     (by decide) (by decide) (by decide) (by decide)⟩

/-- Splitting a channel-wise concatenation back at the first part's
channel count recovers both parts. -/
theorem zipWith_append_split {γ : Type} (n : ℕ) (y1 : List (List γ)) :
    ∀ y2 : List (List γ), (∀ b ∈ y1, b.length = n) → y1.length = y2.length →
      (List.zipWith (fun a b => a ++ b) y1 y2).map (fun chs => chs.take n) = y1 ∧
      (List.zipWith (fun a b => a ++ b) y1 y2).map (fun chs => chs.drop n) = y2 := by
  induction y1 with
  | nil =>
    intro y2 h1 hb
    cases y2 with
    | nil => simp
    | cons b2 t2 => simp at hb
  | cons b1 t1 ih =>
    intro y2 h1 hb
    cases y2 with
    | nil => simp at hb
    | cons b2 t2 =>
      have hlen : b1.length = n := h1 b1 (List.mem_cons_self b1 t1)
      have ht : ∀ b ∈ t1, b.length = n := fun b hbm => h1 b (List.mem_cons_of_mem _ hbm)
      have hbt : t1.length = t2.length := by simpa using hb
      obtain ⟨ih1, ih2⟩ := ih t2 ht hbt
      constructor <;>
        simp [List.take_left' hlen, List.drop_left' hlen, ih1, ih2]

/-- Every element of a channel-wise concatenation has the summed
channel count. -/
theorem zipWith_append_length {γ : Type} (m n : ℕ) (y1 : List (List γ)) :
    ∀ y2 : List (List γ), (∀ b ∈ y1, b.length = m) → (∀ b ∈ y2, b.length = n) →
      ∀ bc ∈ List.zipWith (fun a b => a ++ b) y1 y2, bc.length = m + n := by
  induction y1 with
  | nil => intro y2 h1 h2 bc hbc; simp at hbc
  | cons b1 t1 ih =>
    intro y2 h1 h2 bc hbc
    cases y2 with
    | nil => simp at hbc
    | cons b2 t2 =>
      rw [List.zipWith_cons_cons] at hbc
      rcases List.mem_cons.mp hbc with hbc | hbc
      · have l1 : b1.length = m := h1 b1 (List.mem_cons_self b1 t1)
        have l2 : b2.length = n := h2 b2 (List.mem_cons_self b2 t2)
        rw [hbc, List.length_append, l1, l2]
      · exact ih t2 (fun b hbm => h1 b (List.mem_cons_of_mem _ hbm))
          (fun b hbm => h2 b (List.mem_cons_of_mem _ hbm)) bc hbc

/-- Claim C6: an initialized ConcatenationBlock whose two paths produce
4 and 8 channels over an 8×8 spatial input yields a 12-channel output
by concatenation along the channel axis, and backward's split of the
incoming gradient at the cumulative 4/8 boundary hands each path
exactly its slice — split after concatenate is a round-trip. -/
theorem concat_block_channels_and_split_roundtrip
    (p1 p2 : List (T4 → T4)) (x : T4)
    (h1 : ∀ bc ∈ runPathFw p1 x, bc.length = 4)
    (h2 : ∀ bc ∈ runPathFw p2 x, bc.length = 8)
    (hb : (runPathFw p1 x).length = (runPathFw p2 x).length)
    (hs1 : ∀ bc ∈ runPathFw p1 x, ∀ ch ∈ bc, ch.length = 8 ∧ ∀ row ∈ ch, row.length = 8)
    (hs2 : ∀ bc ∈ runPathFw p2 x, ∀ ch ∈ bc, ch.length = 8 ∧ ∀ row ∈ ch, row.length = 8) :
    (∀ bc ∈ concatenationBlockForward [p1, p2] x, bc.length = 12) ∧
    concatenationBlockSlices [4, 8] (concatenationBlockForward [p1, p2] x)
      = [runPathFw p1 x, runPathFw p2 x] := by
  have hfwd : concatenationBlockForward [p1, p2] x
      = List.zipWith (fun a b => a ++ b) (runPathFw p1 x) (runPathFw p2 x) := rfl
  obtain ⟨hsplit1, hsplit2⟩ :=
    zipWith_append_split 4 (runPathFw p1 x) (runPathFw p2 x) h1 hb
  constructor
  · rw [hfwd]
    exact zipWith_append_length 4 8 (runPathFw p1 x) (runPathFw p2 x) h1 h2
  · rw [hfwd]
    show [(List.zipWith (fun a b => a ++ b) (runPathFw p1 x) (runPathFw p2 x)).map
            (fun chs => (chs.drop 0).take (4 - 0)),
          (List.zipWith (fun a b => a ++ b) (runPathFw p1 x) (runPathFw p2 x)).map
            (fun chs => chs.drop 4)]
        = [runPathFw p1 x, runPathFw p2 x]
    simp only [List.drop_zero, Nat.sub_zero]
    rw [hsplit1, hsplit2]

/-- Witness for C6: path one is empty (its output is the 4-channel
input tensor itself), path two replaces its input by the 8-channel
tensor; the block forward has 12 channels and the split recovers both
path outputs. -/
theorem concat_block_channels_and_split_roundtrip_witness :
    ((∀ bc ∈ runPathFw [] tensorEx4, bc.length = 4) ∧
     (∀ bc ∈ runPathFw [fun _ => tensorEx8] tensorEx4, bc.length = 8) ∧
     (runPathFw [] tensorEx4).length
       = (runPathFw [fun _ => tensorEx8] tensorEx4).length) ∧
    (∀ bc ∈ concatenationBlockForward [[], [fun _ => tensorEx8]] tensorEx4,
      bc.length = 12) ∧
    concatenationBlockSlices [4, 8]
        (concatenationBlockForward [[], [fun _ => tensorEx8]] tensorEx4)
      = [runPathFw [] tensorEx4, runPathFw [fun _ => tensorEx8] tensorEx4] := by
  refine ⟨⟨?_, ?_, ?_⟩, ?_⟩
  · decide
  · decide
  · decide
  · exact concat_block_channels_and_split_roundtrip [] [fun _ => tensorEx8]
      tensorEx4 (by decide) (by decide) (by decide) (by decide) (by decide)

end PyDTNN

